import Mathlib

/-!
Shallow embedding of the NTRU reference implementation (src/index.js) of
the ntru-circom repository: polynomial ring arithmetic over Z mod m on
coefficient lists, polynomial long division, the extended Euclidean
algorithm, modular polynomial inversion, private key loading and
generation, and the encrypt and decrypt transforms together with their
witness bundles.

JavaScript numbers are modelled with Int.  The JS remainder operator
x % p (truncated toward zero) is Int.tmod; the JS idiom
((x % p) + p) % p is normMod below, and the two step idiom
v = x % p; if (v < 0) v += p is fixMod.  The while loops of the source
are embedded with explicit fuel; the termination theorems show the fuel
chosen by the wrappers is never exhausted.
-/

deriving instance DecidableEq for Except

namespace NtruJs

/-- Fuel driven floor of log2 on Nat, written structurally so that kernel
reduction can evaluate it (n units of fuel always suffice). -/
def log2Aux : Nat → Nat → Nat
  | 0, _ => 0
  | fuel + 1, n => if n ≤ 1 then 0 else log2Aux fuel (n / 2) + 1

/-- Floor of log2, with log2Nat 0 = 0. -/
def log2Nat (n : Nat) : Nat := log2Aux n n

/-- JS expression ((x % p) + p) % p used by addPolynomials,
subtractPolynomials and multiplyPolynomials to normalize a coefficient. -/
def normMod (x p : Int) : Int := (x.tmod p + p).tmod p

/-- JS pattern v = x % p; if (v < 0) v += p used inside the long division
loop of dividePolynomials. -/
def fixMod (x p : Int) : Int :=
  let v := x.tmod p
  if v < 0 then v + p else v

/-- One plus the degree of a coefficient list: the index just after the
last non-zero coefficient, 0 for the zero polynomial.  The degree function
of src/index.js returns this value minus one (so -1 for zero). -/
def deg1 : List Int → Nat
  | [] => 0
  | x :: xs => if deg1 xs = 0 then (if x = 0 then 0 else 1) else deg1 xs + 1

/-- trimPolynomial from src/index.js: cut the list after the last
non-zero coefficient; the zero polynomial becomes the single entry 0. -/
def trimPolynomial (l : List Int) : List Int :=
  if deg1 l = 0 then [0] else l.take (deg1 l)

/-- modInverse from src/index.js: normalize a into 0..p-1, then scan
x = 1 .. p-1 for the first x with (a * x) % p equal to 1; none when no
inverse exists (including every p below 2, where the scan is empty). -/
def modInverse (a p : Int) : Option Int :=
  let a0 := normMod a p
  ((List.range' 1 (p.toNat - 1)).map (fun (n : Nat) => (n : Int))).find?
    (fun x => (a0 * x).tmod p == 1)

/-- addPolynomials from src/index.js: elementwise sum over the vectors
padded to the longer length, each entry reduced by ((x % p) + p) % p,
result trimmed. -/
def addPolynomials (a b : List Int) (p : Int) : List Int :=
  trimPolynomial ((List.range (max a.length b.length)).map
    (fun i => normMod (a.getD i 0 + b.getD i 0) p))

/-- subtractPolynomials from src/index.js, the same shape as addition. -/
def subtractPolynomials (a b : List Int) (p : Int) : List Int :=
  trimPolynomial ((List.range (max a.length b.length)).map
    (fun i => normMod (a.getD i 0 - b.getD i 0) p))

/-- Coefficient k of the product of two coefficient lists (the exact
integer convolution). -/
def convCoeff (a b : List Int) (k : Nat) : Int :=
  ∑ j ∈ Finset.range (k + 1), a.getD j 0 * b.getD (k - j) 0

/-- multiplyPolynomials from src/index.js.  The source computes the
convolution with a floating point FFT and rounds each output; per spec
section 4.1 the FFT is an optimization whose rounded output must equal
the exact integer convolution, which is what this embedding computes:
result length len a + len b - 1, each entry reduced by
((x % p) + p) % p, empty operands giving the zero polynomial. -/
def multiplyPolynomials (a b : List Int) (p : Int) : List Int :=
  if a.length = 0 ∨ b.length = 0 then [0]
  else
    trimPolynomial ((List.range (a.length + b.length - 1)).map
      (fun k => normMod (convCoeff a b k) p))

/-- multiplyPolynomialsByScalar from src/index.js: map of
(coeff * scalar) % p with the plain JS remainder (no sign fix). -/
def multiplyPolynomialsByScalar (l : List Int) (s p : Int) : List Int :=
  l.map (fun c => (c * s).tmod p)

/-- Thrown errors of the embedded JS functions.  The outOfFuel value is an
artifact of embedding the while loops with explicit fuel; the termination
theorems show the wrappers never produce it. -/
inductive JsErr where
  | zeroPoly
  | noInverse
  | outOfFuel
  | invalidGcd
  | invalidFq
  | invalidFp
  | rangeErr
  | keySearch
  deriving DecidableEq, Repr

/-- Inner loop of dividePolynomials: for i = 0 .. n - 1 replace
dividend[i + degDiff] by ((dividend[i + degDiff] - coeff * divisor[i]) % p)
with a conditional + p.  Written so that n + 1 steps perform the first n
steps and then step i = n; all touched indices are distinct, so this is
the ascending JS loop. -/
def subLoop (dvs : List Int) (coeff : Int) (degDiff : Nat) (p : Int) :
    Nat → List Int → List Int
  | 0, dvd => dvd
  | n + 1, dvd =>
    let prev := subLoop dvs coeff degDiff p n dvd
    prev.set (n + degDiff)
      (fixMod (prev.getD (n + degDiff) 0 - coeff * dvs.getD n 0) p)

/-- While loop of dividePolynomials with explicit fuel: run while
degree(dividend) is at least degree(divisor). -/
def divideLoop (dvs : List Int) (p : Int) :
    Nat → List Int → List Int → Except JsErr (List Int × List Int)
  | 0, dvd, quot =>
    if deg1 dvs ≤ deg1 dvd then .error .outOfFuel
    else .ok (trimPolynomial quot, trimPolynomial dvd)
  | fuel + 1, dvd, quot =>
    if deg1 dvs ≤ deg1 dvd then
      match modInverse (dvs.getD (deg1 dvs - 1) 0) p with
      | none => .error .noInverse
      | some inv =>
        let coeff := (dvd.getD (deg1 dvd - 1) 0 * inv).tmod p
        let degDiff := deg1 dvd - deg1 dvs
        divideLoop dvs p fuel (subLoop dvs coeff degDiff p (deg1 dvs) dvd)
          (quot.set degDiff coeff)
    else .ok (trimPolynomial quot, trimPolynomial dvd)

/-- dividePolynomials from src/index.js: long division of a by b mod p,
failing on the zero divisor, returning the trimmed quotient and remainder.
The quotient buffer starts as max(0, degree a - degree b + 1) zeros; the
degree of the dividend strictly decreases each pass, so deg1 a units of
fuel always suffice. -/
def dividePolynomials (a b : List Int) (p : Int) :
    Except JsErr (List Int × List Int) :=
  if deg1 b = 0 then .error .zeroPoly
  else divideLoop b p (deg1 a) a (List.replicate (deg1 a + 1 - deg1 b) 0)

/-- Euclidean loop of extendedEuclideanAlgorithm with explicit fuel,
carrying the remainder pair (r0, r1) and the coefficient pair (s0, s1). -/
def eeaLoop (p : Int) :
    Nat → List Int → List Int → List Int → List Int →
    Except JsErr (List Int × List Int)
  | 0, r0, r1, s0, _ =>
    if deg1 r1 = 0 then .ok (r0, s0) else .error .outOfFuel
  | fuel + 1, r0, r1, s0, s1 =>
    if deg1 r1 = 0 then .ok (r0, s0)
    else do
      let qr ← dividePolynomials r0 r1 p
      eeaLoop p fuel r1 qr.2 s1
        (subtractPolynomials s0 (multiplyPolynomials qr.1 s1 p) p)

/-- extendedEuclideanAlgorithm from src/index.js, returning the pair
(gcd, inverse).  After the loop the result is normalized by the inverse of
its leading coefficient when that inverse exists and differs from 1, and
the source guard throws invalid_gcd when the length differs from 1 AND the
constant term differs from 1 (the conjunction exactly as written there).
The degree of r1 strictly decreases across the loop, so deg1 a + deg1 b + 2
units of fuel always suffice. -/
def extendedEuclideanAlgorithm (a b : List Int) (p : Int) :
    Except JsErr (List Int × List Int) := do
  let rs ← eeaLoop p (deg1 a + deg1 b + 2) a b [1] [0]
  let r0 := rs.1
  let s0 := rs.2
  let norm :=
    match modInverse (r0.getD (deg1 r0 - 1) 0) p with
    | some inv =>
      if inv ≠ 1 then
        (multiplyPolynomialsByScalar r0 inv p, multiplyPolynomialsByScalar s0 inv p)
      else (r0, s0)
    | none => (r0, s0)
  if norm.1.length ≠ 1 ∧ norm.1.getD 0 0 ≠ 1 then .error .invalidGcd
  else .ok norm

/-- Newton lifting loop of polyInv for power of two moduli: the iteration
next = (2 current - polyIn current^2) reduced mod polyI, run
exponent - 1 times. -/
def newtonLoop (polyIn polyI : List Int) (polyMod : Int) :
    Nat → List Int → Except JsErr (List Int)
  | 0, inverse => .ok inverse
  | k + 1, inverse => do
    let twiceInverse := multiplyPolynomialsByScalar inverse 2 polyMod
    let squareTerm :=
      multiplyPolynomials polyIn (multiplyPolynomials inverse inverse polyMod) polyMod
    let updated := subtractPolynomials twiceInverse squareTerm polyMod
    let d ← dividePolynomials updated polyI polyMod
    newtonLoop polyIn polyI polyMod k (trimPolynomial d.2)

/-- polyInv from src/index.js: when the modulus is a power of two, invert
mod 2 by the extended Euclidean algorithm and lift with log2(polyMod) - 1
Newton steps; otherwise take the prime path and return the Euclidean
inverse directly. -/
def polyInv (polyIn polyI : List Int) (polyMod : Int) : Except JsErr (List Int) :=
  if 0 < polyMod ∧ 2 ^ log2Nat polyMod.toNat = polyMod.toNat then do
    let e ← extendedEuclideanAlgorithm polyIn polyI 2
    newtonLoop polyIn polyI polyMod (log2Nat polyMod.toNat - 1) e.2
  else do
    let e ← extendedEuclideanAlgorithm polyIn polyI polyMod
    return e.2

/-- The ideal polynomial I = x^N - 1 exactly as built in the NTRU
constructor: N + 1 zeros with entry 0 set to 1 and the last entry set
to -1. -/
def idealPoly (N : Nat) : List Int :=
  ((List.replicate (N + 1) 0).set 0 1).set N (-1)

/-- The mutable private key fields of the NTRU class, none modelling the
JS null. -/
structure KeyState where
  f : Option (List Int)
  fq : Option (List Int)
  fp : Option (List Int)
  deriving DecidableEq, Repr

def initialKeyState : KeyState := ⟨none, none, none⟩

/-- loadPrivateKeyF from src/index.js as a state transformer: the fields
f, fq, fp are assigned in source order, so on a thrown error the
assignments already made stay in place, exactly as with the JS
this-mutations.  The result pairs the state with the thrown error; none
means the JS function returned true.  Both verification guards use the
conjunction exactly as written in the source (length differing from 1 AND
constant term differing from 1). -/
def loadPrivateKeyF (N : Nat) (p q : Int) (st : KeyState) (fArr : List Int) :
    KeyState × Option JsErr :=
  let polyI := idealPoly N
  let st1 : KeyState := { st with f := some fArr }
  match polyInv fArr polyI q with
  | .error e => (st1, some e)
  | .ok fqv =>
    let st2 : KeyState := { st1 with fq := some fqv }
    match polyInv fArr polyI p with
    | .error e => (st2, some e)
    | .ok fpv =>
      let st3 : KeyState := { st2 with fp := some fpv }
      let fmodq := fArr.map (fun x => if x = -1 then q - 1 else x)
      let fmodp := fArr.map (fun x => if x = -1 then p - 1 else x)
      match dividePolynomials (multiplyPolynomials fqv fmodq q) polyI q with
      | .error e => (st3, some e)
      | .ok fqDiv =>
        if fqDiv.2.length ≠ 1 ∧ fqDiv.2.getD 0 0 ≠ 1 then (st3, some .invalidFq)
        else
          match dividePolynomials (multiplyPolynomials fpv fmodp p) polyI p with
          | .error e => (st3, some e)
          | .ok fpDiv =>
            if fpDiv.2.length ≠ 1 ∧ fpDiv.2.getD 0 0 ≠ 1 then (st3, some .invalidFp)
            else (st3, none)

/-- While loop of generatePrivateKeyF: remaining attempts, next candidate
index, the retval flag and the mutable key state.  The loop body calls
loadPrivateKeyF on the next sampled candidate and swallows its error,
setting retval only on success, as the try/catch of the source does. -/
def genLoop (cands : Nat → List Int) (N : Nat) (p q : Int) :
    Nat → Nat → Bool → KeyState → KeyState
  | 0, _, _, st => st
  | rem + 1, idx, retval, st =>
    if retval ∧ st.fq.isSome ∧ st.fp.isSome then st
    else
      let r := loadPrivateKeyF N p q st (cands idx)
      genLoop cands N p q rem (idx + 1) (if r.2.isNone then true else retval) r.1

/-- generatePrivateKeyF from src/index.js with the random candidates
supplied as an oracle: cands i is the trinary array generateCustomArray
would have returned on attempt i.  maxTries is 100 as in the source; after
the loop the source throws only when fq or fp is still unset. -/
def generatePrivateKeyF (cands : Nat → List Int) (N : Nat) (p q : Int) :
    KeyState × Option JsErr :=
  let st := genLoop cands N p q 100 0 false initialKeyState
  if st.fq.isNone ∨ st.fp.isNone then (st, some .keySearch) else (st, none)

/-- expandArray from src/index.js: append len - arr.length fill entries;
when arr is longer than len the JS Array constructor receives a negative
length and throws a RangeError, modelled as an error. -/
def expandArrayE (arr : List Int) (len : Nat) (fill : Int) :
    Except JsErr (List Int) :=
  if arr.length ≤ len then .ok (arr ++ List.replicate (len - arr.length) fill)
  else .error .rangeErr

/-- The value and witness inputs returned by encryptBits (the params field
of the source holds bit width scalars computed with a floating point log2
and is outside the modelled bundle). -/
structure EncBundle where
  value : List Int
  r : List Int
  m : List Int
  h : List Int
  quotientE : List Int
  remainderE : List Int
  deriving DecidableEq, Repr

/-- encryptBits from src/index.js, with the sampled trinary randomness
rSample passed in place of the generateCustomArray call (the only
randomness) and the public key hKey in place of this.h. -/
def encryptBits (N : Nat) (p q : Int) (hKey rSample m : List Int) :
    Except JsErr EncBundle := do
  let r := rSample.map (fun x => if x = -1 then p - 1 else x)
  let rhq := multiplyPolynomials r hKey q
  let rhqm := addPolynomials m rhq q
  let d ← dividePolynomials rhqm (idealPoly N) q
  let mE ← expandArrayE m N 0
  let hE ← expandArrayE hKey N 0
  let qE ← expandArrayE (d.1.map (fun x => x.tmod q)) (N + 1) 0
  let rE ← expandArrayE d.2 (N + 1) 0
  return { value := trimPolynomial d.2, r := r, m := mE, h := hE,
           quotientE := qE, remainderE := rE }

/-- The value and witness inputs returned by decryptBits. -/
structure DecBundle where
  value : List Int
  f : List Int
  fp : List Int
  e : List Int
  quotient1 : List Int
  remainder1 : List Int
  quotient2 : List Int
  remainder2 : List Int
  deriving DecidableEq, Repr

/-- decryptBits from src/index.js: the private key fKey (still holding -1
entries) and fpKey are passed explicitly in place of the this fields.  The
coefficient test x greater than q / 2 is written q less than 2 x, which is
the same integer comparison. -/
def decryptBits (N : Nat) (p q : Int) (fKey fpKey e : List Int) :
    Except JsErr DecBundle := do
  let f := fKey.map (fun x => if x = -1 then q - 1 else x)
  let a := multiplyPolynomials f e q
  let aDiv ← dividePolynomials a (idealPoly N) q
  let aDivP := aDiv.2.map (fun x => if q < 2 * x then (x + 1).tmod p else x.tmod p)
  let c := multiplyPolynomials fpKey aDivP p
  let cDiv ← dividePolynomials c (idealPoly N) p
  let fE ← expandArrayE f N 0
  let fpE ← expandArrayE fpKey N 0
  let eE ← expandArrayE e N 0
  let q1 ← expandArrayE aDiv.1 (N + 1) 0
  let r1 ← expandArrayE aDiv.2 (N + 1) 0
  let q2 ← expandArrayE cDiv.1 (N + 1) 0
  let r2 ← expandArrayE cDiv.2 (N + 1) 0
  return { value := trimPolynomial cDiv.2, f := fE, fp := fpE, e := eE,
           quotient1 := q1, remainder1 := r1, quotient2 := q2, remainder2 := r2 }

/-- Decryption pipeline as the specification words it (spec section 4.4):
a = (f e) mod I mod q with the -1 entries of f sent to q - 1, then
b i = (a i + 1) mod p when a i exceeds q / 2 and a i mod p otherwise, then
c = (fp b) mod I mod p, and the canonicalized c is the recovered
plaintext. -/
def decryptPipelineSpec (N : Nat) (p q : Int) (fKey fpKey e : List Int) :
    Except JsErr (List Int) := do
  let fMapped := fKey.map (fun x => if x = -1 then q - 1 else x)
  let aStep ← dividePolynomials (multiplyPolynomials fMapped e q) (idealPoly N) q
  let bStep := aStep.2.map (fun x => if q < 2 * x then (x + 1).tmod p else x.tmod p)
  let cStep ← dividePolynomials (multiplyPolynomials fpKey bStep p) (idealPoly N) p
  return trimPolynomial cStep.2

/-! Arithmetic facts about the JS remainder idioms. -/

theorem tmod_sub_dvd (x p : Int) : p ∣ x - x.tmod p :=
  ⟨x.tdiv p, by rw [Int.tmod_def]; ring⟩

theorem neg_tmod_num (y p : Int) : (-y).tmod p = -(y.tmod p) := by
  rw [Int.tmod_def, Int.tmod_def, Int.neg_tdiv]; ring

theorem neg_lt_tmod (x : Int) {p : Int} (hp : 0 < p) : -p < x.tmod p := by
  rcases le_or_lt 0 x with hx | hx
  · exact lt_of_lt_of_le (neg_neg_of_pos hp) (Int.tmod_nonneg p hx)
  · have h1 : x.tmod p = -((-x).tmod p) := by rw [neg_tmod_num, neg_neg]
    have h2 : (-x).tmod p < p := Int.tmod_lt_of_pos _ hp
    omega

theorem emod_eq_of_sub_dvd {x y p : Int} (h : p ∣ x - y) : x % p = y % p := by
  have := Int.emod_emod_of_dvd x (dvd_refl p)
  obtain ⟨k, hk⟩ := h
  have hx : x = y + p * k := by linarith
  rw [hx, mul_comm, Int.add_mul_emod_self]

theorem fixMod_eq_emod (x : Int) {p : Int} (hp : 0 < p) : fixMod x p = x % p := by
  have hlow := neg_lt_tmod x hp
  have hhigh := Int.tmod_lt_of_pos x hp
  have hcong : x % p = x.tmod p % p := emod_eq_of_sub_dvd (tmod_sub_dvd x p)
  unfold fixMod
  by_cases hneg : x.tmod p < 0
  · simp only [hneg, if_true]
    have : x.tmod p % p = (x.tmod p + p) % p := by
      have hme := Int.add_mul_emod_self_left (a := x.tmod p) (b := p) (c := 1)
      rw [mul_one] at hme
      exact hme.symm
    rw [hcong, this, Int.emod_eq_of_lt (by omega) (by omega)]
  · simp only [hneg, if_false]
    rw [hcong, Int.emod_eq_of_lt (by omega) (by omega)]

theorem normMod_eq_emod (x : Int) {p : Int} (hp : 0 < p) : normMod x p = x % p := by
  have hlow := neg_lt_tmod x hp
  have hhigh := Int.tmod_lt_of_pos x hp
  have h1 : (x.tmod p + p).tmod p = (x.tmod p + p) % p :=
    Int.tmod_eq_emod (by omega) (by omega)
  have h2 : (x.tmod p + p) % p = x.tmod p % p := by
    have hme := Int.add_mul_emod_self_left (a := x.tmod p) (b := p) (c := 1)
    rw [mul_one] at hme
    exact hme
  unfold normMod
  rw [h1, h2, (emod_eq_of_sub_dvd (tmod_sub_dvd x p)).symm]

theorem normMod_nonneg (x : Int) {p : Int} (hp : 0 < p) : 0 ≤ normMod x p := by
  rw [normMod_eq_emod x hp]; exact Int.emod_nonneg x (by omega)

theorem normMod_lt (x : Int) {p : Int} (hp : 0 < p) : normMod x p < p := by
  rw [normMod_eq_emod x hp]; exact Int.emod_lt_of_pos x hp

theorem fixMod_nonneg (x : Int) {p : Int} (hp : 0 < p) : 0 ≤ fixMod x p := by
  rw [fixMod_eq_emod x hp]; exact Int.emod_nonneg x (by omega)

theorem fixMod_lt (x : Int) {p : Int} (hp : 0 < p) : fixMod x p < p := by
  rw [fixMod_eq_emod x hp]; exact Int.emod_lt_of_pos x hp

/-! Facts about deg1, trimPolynomial and list access. -/

theorem deg1_le_length (l : List Int) : deg1 l ≤ l.length := by
  induction l with
  | nil => simp [deg1]
  | cons x xs ih =>
    simp only [deg1, List.length_cons]
    by_cases h0 : deg1 xs = 0 <;> by_cases hx : x = 0 <;> simp [h0, hx] <;> omega

theorem getD_eq_zero_of_deg1_le :
    ∀ (l : List Int) (i : Nat), deg1 l ≤ i → l.getD i 0 = 0
  | [], i, _ => by simp
  | x :: xs, 0, h => by
    simp only [deg1] at h
    by_cases h0 : deg1 xs = 0 <;> by_cases hx : x = 0 <;>
      simp_all
  | x :: xs, i + 1, h => by
    simp only [List.getD_cons_succ]
    apply getD_eq_zero_of_deg1_le xs i
    simp only [deg1] at h
    by_cases h0 : deg1 xs = 0 <;> simp [h0] at h <;> omega

theorem deg1_le_of_getD :
    ∀ (l : List Int) (n : Nat), (∀ i, n ≤ i → l.getD i 0 = 0) → deg1 l ≤ n
  | [], n, _ => by simp [deg1]
  | x :: xs, n, h => by
    have hxs : deg1 xs ≤ n - 1 := by
      apply deg1_le_of_getD xs (n - 1)
      intro i hi
      have := h (i + 1) (by omega)
      simpa using this
    rcases Nat.eq_zero_or_pos n with hn | hn
    · subst hn
      have hx : x = 0 := by simpa using h 0 (by omega)
      have hzs : deg1 xs = 0 := by omega
      simp [deg1, hx, hzs]
    · simp only [deg1]
      by_cases h0 : deg1 xs = 0 <;> by_cases hx : x = 0 <;> simp [h0, hx] <;> omega

theorem getD_deg1_ne_zero :
    ∀ (l : List Int) (n : Nat), deg1 l = n + 1 → l.getD n 0 ≠ 0
  | [], n, h => by simp [deg1] at h
  | x :: xs, n, h => by
    simp only [deg1] at h
    by_cases h0 : deg1 xs = 0
    · by_cases hx : x = 0
      · simp [h0, hx] at h
      · have hn : n = 0 := by simp [h0, hx] at h; omega
        subst hn
        simpa using hx
    · simp only [h0, if_false] at h
      have hd : deg1 xs = n := by omega
      rcases Nat.eq_zero_or_pos n with hn | hn
      · omega
      · obtain ⟨d, hdd⟩ : ∃ d, n = d + 1 := ⟨n - 1, by omega⟩
        subst hdd
        simpa using getD_deg1_ne_zero xs d (by omega)

theorem getD_take :
    ∀ (l : List Int) (n i : Nat),
      (l.take n).getD i 0 = if i < n then l.getD i 0 else 0
  | [], n, i => by simp
  | x :: xs, 0, i => by simp
  | x :: xs, n + 1, 0 => by simp
  | x :: xs, n + 1, i + 1 => by
    simp only [List.take_succ_cons, List.getD_cons_succ]
    rw [getD_take xs n i]
    simp only [Nat.add_lt_add_iff_right]

theorem getD_trim (l : List Int) (i : Nat) :
    (trimPolynomial l).getD i 0 = l.getD i 0 := by
  unfold trimPolynomial
  split
  · rename_i h0
    have : l.getD i 0 = 0 := getD_eq_zero_of_deg1_le l i (by omega)
    rw [this]
    cases i <;> simp
  · rw [getD_take]
    split
    · rfl
    · exact (getD_eq_zero_of_deg1_le l i (by omega)).symm

theorem deg1_trim (l : List Int) : deg1 (trimPolynomial l) = deg1 l := by
  apply le_antisymm
  · apply deg1_le_of_getD
    intro i hi
    rw [getD_trim]
    exact getD_eq_zero_of_deg1_le l i hi
  · cases hd : deg1 l with
    | zero => omega
    | succ n =>
      by_contra hlt
      have h1 : deg1 (trimPolynomial l) ≤ n := by omega
      have h2 : (trimPolynomial l).getD n 0 = 0 :=
        getD_eq_zero_of_deg1_le _ n h1
      rw [getD_trim] at h2
      exact getD_deg1_ne_zero l n hd h2

theorem deg1_zero_list : deg1 [(0 : Int)] = 0 := by decide

theorem trim_trim (l : List Int) : trimPolynomial (trimPolynomial l) = trimPolynomial l := by
  by_cases h0 : deg1 l = 0
  · have hl : trimPolynomial l = [0] := by rw [trimPolynomial, if_pos h0]
    rw [hl, trimPolynomial, if_pos deg1_zero_list]
  · have ht : trimPolynomial l = l.take (deg1 l) := by rw [trimPolynomial, if_neg h0]
    have hd := deg1_trim l
    rw [ht] at hd
    rw [ht, trimPolynomial, hd, if_neg h0, List.take_take, min_self]

theorem trim_length (l : List Int) :
    (trimPolynomial l).length = max 1 (deg1 l) := by
  unfold trimPolynomial
  split
  · simp_all
  · rename_i h
    rw [List.length_take]
    have := deg1_le_length l
    omega

theorem mem_trim {x : Int} {l : List Int} (h : x ∈ trimPolynomial l) :
    x ∈ l ∨ x = 0 := by
  unfold trimPolynomial at h
  split at h
  · right; simpa using h
  · left; exact List.take_subset _ _ h

theorem deg1_replicate_zero (k : Nat) : deg1 (List.replicate k (0 : Int)) = 0 := by
  induction k with
  | zero => simp [deg1]
  | succ n ih => simp [List.replicate_succ, deg1, ih]

theorem deg1_append_zeros (l : List Int) (k : Nat) :
    deg1 (l ++ List.replicate k 0) = deg1 l := by
  induction l with
  | nil => simp [deg1_replicate_zero, deg1]
  | cons x xs ih => simp only [List.cons_append, deg1, List.append_eq, ih]

theorem trim_append_zeros (l : List Int) (k : Nat) :
    trimPolynomial (l ++ List.replicate k 0) = trimPolynomial l := by
  unfold trimPolynomial
  rw [deg1_append_zeros]
  split
  · rfl
  · exact List.take_append_of_le_length (deg1_le_length l)

theorem getD_set (l : List Int) (k i : Nat) (c : Int) :
    (l.set k c).getD i 0 = if k = i ∧ k < l.length then c else l.getD i 0 := by
  induction l generalizing k i with
  | nil => simp
  | cons x xs ih =>
    cases k with
    | zero =>
      cases i with
      | zero => simp
      | succ j => simp
    | succ m =>
      cases i with
      | zero => simp
      | succ j =>
        simp only [List.set_cons_succ, List.getD_cons_succ, List.length_cons]
        rw [ih]
        by_cases h : m = j ∧ m < xs.length
        · rw [if_pos h, if_pos (by omega)]
        · rw [if_neg h, if_neg (by omega)]

theorem getD_mem (l : List Int) (i : Nat) (h : i < l.length) : l.getD i 0 ∈ l := by
  induction l generalizing i with
  | nil => simp at h
  | cons x xs ih =>
    cases i with
    | zero => simp
    | succ j =>
      simp only [List.getD_cons_succ]
      exact List.mem_cons_of_mem x (ih j (by simpa using h))

/-! Facts about the inner subtraction loop of dividePolynomials. -/

theorem subLoop_length (dvs : List Int) (c : Int) (dd : Nat) (p : Int) :
    ∀ (n : Nat) (dvd : List Int), (subLoop dvs c dd p n dvd).length = dvd.length
  | 0, dvd => rfl
  | n + 1, dvd => by
    simp only [subLoop, List.length_set]
    exact subLoop_length dvs c dd p n dvd

theorem subLoop_getD (dvs : List Int) (c : Int) (dd : Nat) (p : Int) :
    ∀ (n : Nat) (dvd : List Int) (i : Nat),
      (subLoop dvs c dd p n dvd).getD i 0 =
        if dd ≤ i ∧ i < n + dd ∧ i < dvd.length then
          fixMod (dvd.getD i 0 - c * dvs.getD (i - dd) 0) p
        else dvd.getD i 0
  | 0, dvd, i => by
    simp only [subLoop]
    rw [if_neg (by omega)]
  | n + 1, dvd, i => by
    simp only [subLoop]
    rw [getD_set, subLoop_length]
    by_cases hi : n + dd = i ∧ n + dd < dvd.length
    · rw [if_pos hi]
      obtain ⟨hie, hil⟩ := hi
      subst hie
      rw [subLoop_getD dvs c dd p n dvd (n + dd),
        if_neg (by omega : ¬(dd ≤ n + dd ∧ n + dd < n + dd ∧ n + dd < dvd.length)),
        if_pos (by omega : dd ≤ n + dd ∧ n + dd < n + 1 + dd ∧ n + dd < dvd.length)]
      rw [Nat.add_sub_cancel]
    · rw [if_neg hi, subLoop_getD dvs c dd p n dvd i]
      by_cases hc : dd ≤ i ∧ i < n + dd ∧ i < dvd.length
      · rw [if_pos hc, if_pos (by omega)]
      · rw [if_neg hc, if_neg (by omega)]

/-! Facts about the convolution coefficients. -/

theorem convCoeff_congr_left (a a2 b : List Int)
    (h : ∀ j, a.getD j 0 = a2.getD j 0) (k : Nat) :
    convCoeff a b k = convCoeff a2 b k := by
  unfold convCoeff
  exact Finset.sum_congr rfl (fun j _ => by rw [h j])

theorem convCoeff_trim_left (a b : List Int) (k : Nat) :
    convCoeff (trimPolynomial a) b k = convCoeff a b k :=
  convCoeff_congr_left _ _ _ (fun j => getD_trim a j) k

theorem convCoeff_set (l b : List Int) (k : Nat) (c : Int) (i : Nat)
    (hk : k < l.length) (h0 : l.getD k 0 = 0) :
    convCoeff (l.set k c) b i =
      convCoeff l b i + (if k ≤ i then c * b.getD (i - k) 0 else 0) := by
  unfold convCoeff
  have hterm : ∀ j ∈ Finset.range (i + 1),
      (l.set k c).getD j 0 * b.getD (i - j) 0 =
        l.getD j 0 * b.getD (i - j) 0 +
          (if j = k then c * b.getD (i - k) 0 else 0) := by
    intro j _
    rw [getD_set]
    by_cases hjk : j = k
    · subst hjk
      rw [if_pos ⟨rfl, hk⟩, if_pos rfl, h0]
      ring
    · rw [if_neg (by exact fun hh => hjk hh.1.symm), if_neg hjk]
      ring
  rw [Finset.sum_congr rfl hterm, Finset.sum_add_distrib,
    Finset.sum_ite_eq' (Finset.range (i + 1)) k
      (fun _ => c * b.getD (i - k) 0)]
  congr 1
  by_cases hki : k ≤ i
  · rw [if_pos (by simpa [Finset.mem_range] using by omega), if_pos hki]
  · rw [if_neg (by simp [Finset.mem_range]; omega), if_neg hki]

theorem convCoeff_zero_left (a b : List Int) (h : ∀ j, a.getD j 0 = 0) (i : Nat) :
    convCoeff a b i = 0 := by
  unfold convCoeff
  exact Finset.sum_eq_zero (fun j _ => by rw [h j, zero_mul])

/-! Facts about modInverse. -/

theorem modInverse_spec {a p x : Int} (h : modInverse a p = some x) :
    (a * x) % p = 1 ∧ 1 ≤ x ∧ x < p := by
  unfold modInverse at h
  have hmem := List.mem_of_find?_eq_some h
  have hpred := List.find?_some h
  rw [List.mem_map] at hmem
  obtain ⟨n, hnr, hx⟩ := hmem
  subst hx
  rw [List.mem_range'_1] at hnr
  obtain ⟨h1n, h2n⟩ := hnr
  have hptn : 1 < p.toNat := by omega
  have hp : 0 < p := by omega
  have hlt : (n : Int) < p := by
    have hcast : ((n : Int)) < ((p.toNat : Nat) : Int) := by exact_mod_cast by omega
    omega
  have hone : (1 : Int) ≤ (n : Int) := by exact_mod_cast h1n
  refine ⟨?_, hone, hlt⟩
  have heq : (normMod a p * (n : Int)).tmod p = 1 := by
    simpa using hpred
  have hnn : 0 ≤ normMod a p * (n : Int) :=
    mul_nonneg (normMod_nonneg a hp) (by omega)
  rw [Int.tmod_eq_emod hnn (by omega)] at heq
  rw [normMod_eq_emod a hp] at heq
  have hsplit : (a % p * (n : Int)) % p = (a * (n : Int)) % p :=
    Int.ModEq.mul_right _ (Int.emod_emod_of_dvd a (dvd_refl p))
  rw [← hsplit]
  exact heq

theorem emod_sub_dvd (x p : Int) : p ∣ x - x % p :=
  ⟨x / p, by rw [Int.emod_def]; ring⟩

/-- Exact cancellation of the leading term: when v inverts the divisor
leading coefficient L mod p, the residue lead - ((lead * v) % p) * L is a
multiple of p, so the stored entry is exactly 0. -/
theorem lead_cancel {L p v : Int} (hp : 0 < p)
    (hinv : (L * v) % p = 1) (lead : Int) :
    fixMod (lead - (lead * v).tmod p * L) p = 0 := by
  have d1 : p ∣ lead * v - (lead * v).tmod p := tmod_sub_dvd (lead * v) p
  have d2 : p ∣ L * v - 1 := by
    have h1 : p ∣ L * v - L * v % p := emod_sub_dvd (L * v) p
    rw [hinv] at h1
    exact h1
  have dall : p ∣ lead - (lead * v).tmod p * L := by
    have hc : lead - (lead * v).tmod p * L =
        (lead * v - (lead * v).tmod p) * L - lead * (L * v - 1) := by ring
    rw [hc]
    exact dvd_sub (d1.mul_right L) (d2.mul_left lead)
  rw [fixMod_eq_emod _ hp]
  exact Int.emod_eq_zero_of_dvd dall

/-! Behaviour of the division loop. -/

/-- After one pass of the long division loop the leading entry of the
dividend is exactly 0 and every higher entry stays 0, so the degree
strictly decreases. -/
theorem divide_step_deg1_lt {dvs : List Int} {p : Int} {v : Int}
    (hp : 0 < p) (hdvs : 1 ≤ deg1 dvs) (dvd : List Int)
    (hcond : deg1 dvs ≤ deg1 dvd)
    (hinv : modInverse (dvs.getD (deg1 dvs - 1) 0) p = some v) :
    (subLoop dvs ((dvd.getD (deg1 dvd - 1) 0 * v).tmod p)
        (deg1 dvd - deg1 dvs) p (deg1 dvs) dvd).getD (deg1 dvd - 1) 0 = 0 ∧
    deg1 (subLoop dvs ((dvd.getD (deg1 dvd - 1) 0 * v).tmod p)
        (deg1 dvd - deg1 dvs) p (deg1 dvs) dvd) < deg1 dvd := by
  obtain ⟨hLv, _, _⟩ := modInverse_spec hinv
  have hlen := deg1_le_length dvd
  have htop : (subLoop dvs ((dvd.getD (deg1 dvd - 1) 0 * v).tmod p)
      (deg1 dvd - deg1 dvs) p (deg1 dvs) dvd).getD (deg1 dvd - 1) 0 = 0 := by
    rw [subLoop_getD, if_pos (by omega)]
    have hidx : deg1 dvd - 1 - (deg1 dvd - deg1 dvs) = deg1 dvs - 1 := by omega
    rw [hidx]
    exact lead_cancel hp hLv _
  refine ⟨htop, ?_⟩
  have hzero : ∀ i, deg1 dvd - 1 ≤ i →
      (subLoop dvs ((dvd.getD (deg1 dvd - 1) 0 * v).tmod p)
        (deg1 dvd - deg1 dvs) p (deg1 dvs) dvd).getD i 0 = 0 := by
    intro i hi
    by_cases hie : i = deg1 dvd - 1
    · rw [hie]; exact htop
    · rw [subLoop_getD, if_neg (by omega)]
      exact getD_eq_zero_of_deg1_le dvd i (by omega)
  have := deg1_le_of_getD _ (deg1 dvd - 1) hzero
  omega

/-- The division loop never runs out of fuel when the fuel covers the gap
between the dividend and divisor degrees. -/
theorem divideLoop_no_fuel_err {dvs : List Int} {p : Int}
    (hp : 0 < p) (hdvs : 1 ≤ deg1 dvs) :
    ∀ (fuel : Nat) (dvd quot : List Int), deg1 dvd ≤ fuel + (deg1 dvs - 1) →
      divideLoop dvs p fuel dvd quot ≠ .error .outOfFuel
  | 0, dvd, quot, hfuel => by
    simp only [divideLoop]
    rw [if_neg (by omega)]
    intro hcontra
    exact Except.noConfusion hcontra
  | fuel + 1, dvd, quot, hfuel => by
    simp only [divideLoop]
    by_cases hcond : deg1 dvs ≤ deg1 dvd
    · rw [if_pos hcond]
      cases hmi : modInverse (dvs.getD (deg1 dvs - 1) 0) p with
      | none =>
        intro hcontra
        simp at hcontra
      | some v =>
        have hstep := divide_step_deg1_lt hp hdvs dvd hcond hmi
        exact divideLoop_no_fuel_err hp hdvs fuel _ _ (by omega)
    · rw [if_neg hcond]
      intro hcontra
      exact Except.noConfusion hcontra

/-- When the divisor leading coefficient has an inverse, the division loop
returns a result (given sufficient fuel). -/
theorem divideLoop_ok_of_inv {dvs : List Int} {p : Int} {v : Int}
    (hp : 0 < p) (hdvs : 1 ≤ deg1 dvs)
    (hmi : modInverse (dvs.getD (deg1 dvs - 1) 0) p = some v) :
    ∀ (fuel : Nat) (dvd quot : List Int), deg1 dvd ≤ fuel + (deg1 dvs - 1) →
      ∃ pr, divideLoop dvs p fuel dvd quot = .ok pr
  | 0, dvd, quot, hfuel => by
    simp only [divideLoop]
    rw [if_neg (by omega)]
    exact ⟨_, rfl⟩
  | fuel + 1, dvd, quot, hfuel => by
    simp only [divideLoop]
    by_cases hcond : deg1 dvs ≤ deg1 dvd
    · rw [if_pos hcond, hmi]
      have hstep := divide_step_deg1_lt hp hdvs dvd hcond hmi
      exact divideLoop_ok_of_inv hp hdvs hmi fuel _ _ (by omega)
    · rw [if_neg hcond]
      exact ⟨_, rfl⟩

/-- An error out of the division loop is either fuel exhaustion or the
missing inverse of the divisor leading coefficient. -/
theorem divideLoop_error_cases {dvs : List Int} {p : Int} :
    ∀ (fuel : Nat) (dvd quot : List Int) (e : JsErr),
      divideLoop dvs p fuel dvd quot = .error e →
      e = .outOfFuel ∨ e = .noInverse
  | 0, dvd, quot, e, h => by
    simp only [divideLoop] at h
    by_cases hcond : deg1 dvs ≤ deg1 dvd
    · rw [if_pos hcond] at h
      cases h
      exact Or.inl rfl
    · rw [if_neg hcond] at h
      exact Except.noConfusion h
  | fuel + 1, dvd, quot, e, h => by
    simp only [divideLoop] at h
    by_cases hcond : deg1 dvs ≤ deg1 dvd
    · rw [if_pos hcond] at h
      cases hmi : modInverse (dvs.getD (deg1 dvs - 1) 0) p with
      | none =>
        rw [hmi] at h
        cases h
        exact Or.inr rfl
      | some v =>
        rw [hmi] at h
        exact divideLoop_error_cases fuel _ _ e h
    · rw [if_neg hcond] at h
      exact Except.noConfusion h

/-- An error out of the division loop implies the loop condition held at
entry. -/
theorem divideLoop_error_cond {dvs : List Int} {p : Int}
    (fuel : Nat) (dvd quot : List Int) (e : JsErr)
    (h : divideLoop dvs p fuel dvd quot = .error e) : deg1 dvs ≤ deg1 dvd := by
  by_contra hcond
  cases fuel with
  | zero =>
    simp only [divideLoop, if_neg hcond] at h
    exact Except.noConfusion h
  | succ fuel =>
    simp only [divideLoop, if_neg hcond] at h
    exact Except.noConfusion h

/-- Results of the division loop are trimmed. -/
theorem divideLoop_ok_trimmed {dvs : List Int} {p : Int} :
    ∀ (fuel : Nat) (dvd quot q r : List Int),
      divideLoop dvs p fuel dvd quot = .ok (q, r) →
      trimPolynomial q = q ∧ trimPolynomial r = r
  | 0, dvd, quot, q, r, h => by
    simp only [divideLoop] at h
    by_cases hcond : deg1 dvs ≤ deg1 dvd
    · rw [if_pos hcond] at h
      exact Except.noConfusion h
    · rw [if_neg hcond] at h
      cases h
      exact ⟨trim_trim quot, trim_trim dvd⟩
  | fuel + 1, dvd, quot, q, r, h => by
    simp only [divideLoop] at h
    by_cases hcond : deg1 dvs ≤ deg1 dvd
    · rw [if_pos hcond] at h
      cases hmi : modInverse (dvs.getD (deg1 dvs - 1) 0) p with
      | none => rw [hmi] at h; exact Except.noConfusion h
      | some v =>
        rw [hmi] at h
        exact divideLoop_ok_trimmed fuel _ _ q r h
    · rw [if_neg hcond] at h
      cases h
      exact ⟨trim_trim quot, trim_trim dvd⟩

/-- Loop invariant of the long division: the original dividend is
congruent, coefficient by coefficient mod p, to the convolution of the
accumulated quotient with the divisor plus the current dividend. -/
theorem divideLoop_identity (a0 : List Int) {dvs : List Int} {p : Int}
    (hp : 0 < p) (hdvs : 1 ≤ deg1 dvs) :
    ∀ (fuel : Nat) (dvd quot q r : List Int),
      deg1 dvd < quot.length + deg1 dvs →
      (∀ j, j + deg1 dvs ≤ deg1 dvd → quot.getD j 0 = 0) →
      (∀ i, (convCoeff quot dvs i + dvd.getD i 0) % p = a0.getD i 0 % p) →
      divideLoop dvs p fuel dvd quot = .ok (q, r) →
      ∀ i, (convCoeff q dvs i + r.getD i 0) % p = a0.getD i 0 % p
  | 0, dvd, quot, q, r, hql, hfr, hid, hok => by
    simp only [divideLoop] at hok
    by_cases hcond : deg1 dvs ≤ deg1 dvd
    · rw [if_pos hcond] at hok
      exact Except.noConfusion hok
    · rw [if_neg hcond] at hok
      cases hok
      intro i
      rw [convCoeff_trim_left, getD_trim]
      exact hid i
  | fuel + 1, dvd, quot, q, r, hql, hfr, hid, hok => by
    simp only [divideLoop] at hok
    by_cases hcond : deg1 dvs ≤ deg1 dvd
    · rw [if_pos hcond] at hok
      cases hmi : modInverse (dvs.getD (deg1 dvs - 1) 0) p with
      | none =>
        rw [hmi] at hok
        exact Except.noConfusion hok
      | some v =>
        rw [hmi] at hok
        have hstep := divide_step_deg1_lt hp hdvs dvd hcond hmi
        have hddlt : deg1 dvd - deg1 dvs < quot.length := by omega
        have hfr0 : quot.getD (deg1 dvd - deg1 dvs) 0 = 0 := hfr _ (by omega)
        have hlen2 : (subLoop dvs ((dvd.getD (deg1 dvd - 1) 0 * v).tmod p)
            (deg1 dvd - deg1 dvs) p (deg1 dvs) dvd).length = dvd.length :=
          subLoop_length dvs _ _ p (deg1 dvs) dvd
        refine divideLoop_identity a0 hp hdvs fuel _ _ q r ?_ ?_ ?_ hok
        · rw [List.length_set]
          omega
        · intro j hj
          rw [getD_set, if_neg (by omega)]
          exact hfr j (by omega)
        · intro i
          rw [convCoeff_set quot dvs (deg1 dvd - deg1 dvs)
            ((dvd.getD (deg1 dvd - 1) 0 * v).tmod p) i hddlt hfr0, subLoop_getD]
          by_cases hddi : deg1 dvd - deg1 dvs ≤ i
          · by_cases hin : i < deg1 dvs + (deg1 dvd - deg1 dvs) ∧ i < dvd.length
            · have hc3 : deg1 dvd - deg1 dvs ≤ i ∧
                  i < deg1 dvs + (deg1 dvd - deg1 dvs) ∧ i < dvd.length :=
                ⟨hddi, hin.1, hin.2⟩
              rw [if_pos hddi, if_pos hc3]
              rw [fixMod_eq_emod _ hp]
              have hchain :
                  (convCoeff quot dvs i +
                    (dvd.getD (deg1 dvd - 1) 0 * v).tmod p *
                      dvs.getD (i - (deg1 dvd - deg1 dvs)) 0 +
                    (dvd.getD i 0 - (dvd.getD (deg1 dvd - 1) 0 * v).tmod p *
                      dvs.getD (i - (deg1 dvd - deg1 dvs)) 0) % p) % p =
                  (convCoeff quot dvs i +
                    (dvd.getD (deg1 dvd - 1) 0 * v).tmod p *
                      dvs.getD (i - (deg1 dvd - deg1 dvs)) 0 +
                    (dvd.getD i 0 - (dvd.getD (deg1 dvd - 1) 0 * v).tmod p *
                      dvs.getD (i - (deg1 dvd - deg1 dvs)) 0)) % p := by
                rw [Int.add_emod _ ((dvd.getD i 0 -
                    (dvd.getD (deg1 dvd - 1) 0 * v).tmod p *
                    dvs.getD (i - (deg1 dvd - deg1 dvs)) 0) % p),
                  Int.emod_emod_of_dvd _ (dvd_refl p),
                  ← Int.add_emod]
              rw [hchain]
              have hsimp : convCoeff quot dvs i +
                  (dvd.getD (deg1 dvd - 1) 0 * v).tmod p *
                    dvs.getD (i - (deg1 dvd - deg1 dvs)) 0 +
                  (dvd.getD i 0 - (dvd.getD (deg1 dvd - 1) 0 * v).tmod p *
                    dvs.getD (i - (deg1 dvd - deg1 dvs)) 0) =
                  convCoeff quot dvs i + dvd.getD i 0 := by ring
              rw [hsimp]
              exact hid i
            · have hlenb : i ≥ deg1 dvs + (deg1 dvd - deg1 dvs) := by
                have := deg1_le_length dvd
                omega
              have hc3 : ¬(deg1 dvd - deg1 dvs ≤ i ∧
                  i < deg1 dvs + (deg1 dvd - deg1 dvs) ∧ i < dvd.length) := by omega
              rw [if_pos hddi, if_neg hc3]
              have hb0 : dvs.getD (i - (deg1 dvd - deg1 dvs)) 0 = 0 :=
                getD_eq_zero_of_deg1_le dvs _ (by omega)
              rw [hb0, mul_zero, add_zero]
              exact hid i
          · have hc3 : ¬(deg1 dvd - deg1 dvs ≤ i ∧
                i < deg1 dvs + (deg1 dvd - deg1 dvs) ∧ i < dvd.length) := by omega
            rw [if_neg hddi, if_neg hc3, add_zero]
            exact hid i
    · rw [if_neg hcond] at hok
      cases hok
      intro i
      rw [convCoeff_trim_left, getD_trim]
      exact hid i

/-- Entries of the dividend after the inner subtraction loop are either
original entries or freshly normalized residues. -/
theorem subLoop_mem {dvs : List Int} {c : Int} {dd : Nat} {p : Int}
    (hp : 0 < p) :
    ∀ (n : Nat) (dvd : List Int) (x : Int), x ∈ subLoop dvs c dd p n dvd →
      x ∈ dvd ∨ (0 ≤ x ∧ x < p)
  | 0, dvd, x, hx => Or.inl hx
  | n + 1, dvd, x, hx => by
    simp only [subLoop] at hx
    rcases List.mem_or_eq_of_mem_set hx with hmem | heq
    · exact subLoop_mem hp n dvd x hmem
    · right
      rw [heq]
      exact ⟨fixMod_nonneg _ hp, fixMod_lt _ hp⟩

/-- Range invariant of the division loop: when the incoming dividend and
quotient entries lie in the interval from 0 to p, so do the entries of an
accepted quotient and remainder. -/
theorem divideLoop_range {dvs : List Int} {p : Int}
    (hp : 0 < p) (hdvs : 1 ≤ deg1 dvs) :
    ∀ (fuel : Nat) (dvd quot q r : List Int),
      (∀ x ∈ dvd, 0 ≤ x ∧ x < p) → (∀ x ∈ quot, 0 ≤ x ∧ x < p) →
      divideLoop dvs p fuel dvd quot = .ok (q, r) →
      (∀ x ∈ q, 0 ≤ x ∧ x < p) ∧ (∀ x ∈ r, 0 ≤ x ∧ x < p)
  | 0, dvd, quot, q, r, hdvd, hquot, hok => by
    simp only [divideLoop] at hok
    by_cases hcond : deg1 dvs ≤ deg1 dvd
    · rw [if_pos hcond] at hok
      exact Except.noConfusion hok
    · rw [if_neg hcond] at hok
      cases hok
      constructor
      · intro x hx
        rcases mem_trim hx with hmem | h0
        · exact hquot x hmem
        · rw [h0]; exact ⟨le_refl 0, hp⟩
      · intro x hx
        rcases mem_trim hx with hmem | h0
        · exact hdvd x hmem
        · rw [h0]; exact ⟨le_refl 0, hp⟩
  | fuel + 1, dvd, quot, q, r, hdvd, hquot, hok => by
    simp only [divideLoop] at hok
    by_cases hcond : deg1 dvs ≤ deg1 dvd
    · rw [if_pos hcond] at hok
      cases hmi : modInverse (dvs.getD (deg1 dvs - 1) 0) p with
      | none =>
        rw [hmi] at hok
        exact Except.noConfusion hok
      | some v =>
        rw [hmi] at hok
        obtain ⟨hLv, hv1, hvp⟩ := modInverse_spec hmi
        have hlead : 0 ≤ dvd.getD (deg1 dvd - 1) 0 ∧ dvd.getD (deg1 dvd - 1) 0 < p := by
          apply hdvd
          apply getD_mem
          have := deg1_le_length dvd
          omega
        have hcoeff : 0 ≤ (dvd.getD (deg1 dvd - 1) 0 * v).tmod p ∧
            (dvd.getD (deg1 dvd - 1) 0 * v).tmod p < p :=
          ⟨Int.tmod_nonneg p (mul_nonneg hlead.1 (by omega)),
            Int.tmod_lt_of_pos _ hp⟩
        refine divideLoop_range hp hdvs fuel _ _ q r ?_ ?_ hok
        · intro x hx
          rcases subLoop_mem hp (deg1 dvs) dvd x hx with hmem | hb
          · exact hdvd x hmem
          · exact hb
        · intro x hx
          rcases List.mem_or_eq_of_mem_set hx with hmem | heq
          · exact hquot x hmem
          · rw [heq]; exact hcoeff
    · rw [if_neg hcond] at hok
      cases hok
      constructor
      · intro x hx
        rcases mem_trim hx with hmem | h0
        · exact hquot x hmem
        · rw [h0]; exact ⟨le_refl 0, hp⟩
      · intro x hx
        rcases mem_trim hx with hmem | h0
        · exact hdvd x hmem
        · rw [h0]; exact ⟨le_refl 0, hp⟩

theorem mem_trim_map_normMod {m : Int} (hm : 0 < m) (f : Nat → Int)
    (idxs : List Nat) {x : Int}
    (h : x ∈ trimPolynomial (idxs.map (fun i => normMod (f i) m))) :
    0 ≤ x ∧ x < m := by
  rcases mem_trim h with hmem | h0
  · rcases List.mem_map.mp hmem with ⟨i, _, hi⟩
    rw [← hi]
    exact ⟨normMod_nonneg _ hm, normMod_lt _ hm⟩
  · rw [h0]
    exact ⟨le_refl 0, hm⟩

/-! The claims. -/

/-- C3: whenever dividePolynomials a b m returns, the quotient and
remainder are canonicalized (trimming them is the identity) and
a is congruent coefficientwise mod m to quotient times b plus remainder;
and when degree a is below degree b the call succeeds with the zero
polynomial quotient and remainder the canonical form of a. -/
theorem claim_C3_divide_identity (a b : List Int) (m : Int) (hm : 2 ≤ m) :
    (∀ q r, dividePolynomials a b m = .ok (q, r) →
      (trimPolynomial q = q ∧ trimPolynomial r = r) ∧
      ∀ i, a.getD i 0 % m = (convCoeff q b i + r.getD i 0) % m) ∧
    (deg1 a < deg1 b → dividePolynomials a b m = .ok ([0], trimPolynomial a)) := by
  constructor
  · intro q r hok
    unfold dividePolynomials at hok
    by_cases hb : deg1 b = 0
    · rw [if_pos hb] at hok
      exact Except.noConfusion hok
    · rw [if_neg hb] at hok
      have hdvs : 1 ≤ deg1 b := by omega
      refine ⟨divideLoop_ok_trimmed _ _ _ _ _ hok, ?_⟩
      intro i
      refine (divideLoop_identity a (by omega) hdvs (deg1 a) a
        (List.replicate (deg1 a + 1 - deg1 b) 0) q r ?_ ?_ ?_ hok i).symm
      · rw [List.length_replicate]
        omega
      · intro j _
        exact getD_eq_zero_of_deg1_le _ j (by rw [deg1_replicate_zero]; omega)
      · intro i
        rw [convCoeff_zero_left _ b
          (fun j => getD_eq_zero_of_deg1_le _ j (by rw [deg1_replicate_zero]; omega)) i,
          zero_add]
  · intro hlt
    have hb1 : 1 ≤ deg1 b := by omega
    unfold dividePolynomials
    rw [if_neg (by omega)]
    have hrepl : deg1 a + 1 - deg1 b = 0 := by omega
    rw [hrepl]
    cases hfa : deg1 a with
    | zero =>
      simp only [divideLoop]
      rw [if_neg (by omega)]
      rfl
    | succ n =>
      simp only [divideLoop]
      rw [if_neg (by omega)]
      rfl

theorem claim_C3_divide_identity_witness :
    (2 : Int) ≤ 3 ∧
    ((∀ q r, dividePolynomials [1, 0] [0, 1] 3 = .ok (q, r) →
        (trimPolynomial q = q ∧ trimPolynomial r = r) ∧
        ∀ i, ([1, 0] : List Int).getD i 0 % 3 =
          (convCoeff q [0, 1] i + r.getD i 0) % 3) ∧
      (deg1 ([1, 0] : List Int) < deg1 ([0, 1] : List Int) →
        dividePolynomials [1, 0] [0, 1] 3 =
          .ok ([0], trimPolynomial [1, 0]))) :=
  ⟨by norm_num, claim_C3_divide_identity [1, 0] [0, 1] 3 (by norm_num)⟩

/-- C7: dividePolynomials a b m throws exactly when the divisor is the
zero polynomial, or the long division runs at least one step (degree b at
most degree a) and the leading coefficient of b has no inverse mod m. -/
theorem claim_C7_divide_error_iff (a b : List Int) (m : Int) (hm : 2 ≤ m) :
    (∃ e, dividePolynomials a b m = .error e) ↔
      (deg1 b = 0 ∨
        (deg1 b ≤ deg1 a ∧ modInverse (b.getD (deg1 b - 1) 0) m = none)) := by
  unfold dividePolynomials
  by_cases hb : deg1 b = 0
  · rw [if_pos hb]
    exact ⟨fun _ => Or.inl hb, fun _ => ⟨.zeroPoly, rfl⟩⟩
  · rw [if_neg hb]
    have hdvs : 1 ≤ deg1 b := by omega
    have hm0 : (0 : Int) < m := by omega
    constructor
    · rintro ⟨e, he⟩
      right
      have hcond : deg1 b ≤ deg1 a := divideLoop_error_cond _ _ _ _ he
      refine ⟨hcond, ?_⟩
      cases hmi : modInverse (b.getD (deg1 b - 1) 0) m with
      | none => rfl
      | some v =>
        obtain ⟨pr, hpr⟩ := divideLoop_ok_of_inv hm0 hdvs hmi (deg1 a) a _ (by omega)
        rw [hpr] at he
        exact Except.noConfusion he
    · rintro (hb0 | ⟨hcond, hnone⟩)
      · omega
      · obtain ⟨f, hf⟩ : ∃ f, deg1 a = f + 1 := ⟨deg1 a - 1, by omega⟩
        refine ⟨.noInverse, ?_⟩
        rw [hf]
        simp only [divideLoop]
        rw [if_pos hcond, hnone]

theorem claim_C7_divide_error_iff_witness :
    (2 : Int) ≤ 4 ∧
    ((∃ e, dividePolynomials [0, 1] [0, 2] 4 = .error e) ↔
      (deg1 ([0, 2] : List Int) = 0 ∨
        (deg1 ([0, 2] : List Int) ≤ deg1 ([0, 1] : List Int) ∧
          modInverse (([0, 2] : List Int).getD (deg1 ([0, 2] : List Int) - 1) 0) 4 =
            none))) :=
  ⟨by norm_num, claim_C7_divide_error_iff [0, 1] [0, 2] 4 (by norm_num)⟩

/-- C10: the long division loop is total on its non throwing domain (the
embedded while loop never exhausts its fuel), because each pass stores
exactly 0 at the leading index and strictly decreases the dividend
degree. -/
theorem claim_C10_divide_terminates (a b : List Int) (m : Int) (hm : 2 ≤ m) :
    dividePolynomials a b m ≠ .error .outOfFuel ∧
    (∀ v, 1 ≤ deg1 b → deg1 b ≤ deg1 a →
      modInverse (b.getD (deg1 b - 1) 0) m = some v →
      (subLoop b ((a.getD (deg1 a - 1) 0 * v).tmod m)
          (deg1 a - deg1 b) m (deg1 b) a).getD (deg1 a - 1) 0 = 0 ∧
      deg1 (subLoop b ((a.getD (deg1 a - 1) 0 * v).tmod m)
          (deg1 a - deg1 b) m (deg1 b) a) < deg1 a) := by
  constructor
  · unfold dividePolynomials
    by_cases hb : deg1 b = 0
    · rw [if_pos hb]
      intro h
      simp at h
    · rw [if_neg hb]
      exact divideLoop_no_fuel_err (by omega) (by omega) (deg1 a) a _ (by omega)
  · intro v h1 h2 hmi
    exact divide_step_deg1_lt (by omega) h1 a h2 hmi

theorem claim_C10_divide_terminates_witness :
    dividePolynomials [1, 1] [1, 1] 3 ≠ .error .outOfFuel ∧
    ((subLoop [1, 1] ((([1, 1] : List Int).getD (deg1 ([1, 1] : List Int) - 1) 0 * 1).tmod 3)
        (deg1 ([1, 1] : List Int) - deg1 ([1, 1] : List Int)) 3 (deg1 ([1, 1] : List Int))
        [1, 1]).getD (deg1 ([1, 1] : List Int) - 1) 0 = 0 ∧
      deg1 (subLoop [1, 1] ((([1, 1] : List Int).getD (deg1 ([1, 1] : List Int) - 1) 0 * 1).tmod 3)
        (deg1 ([1, 1] : List Int) - deg1 ([1, 1] : List Int)) 3 (deg1 ([1, 1] : List Int))
        [1, 1]) < deg1 ([1, 1] : List Int)) :=
  ⟨(claim_C10_divide_terminates [1, 1] [1, 1] 3 (by norm_num)).1,
    (claim_C10_divide_terminates [1, 1] [1, 1] 3 (by norm_num)).2 1
      (by decide) (by decide) (by decide)⟩

/-- C9 fails as stated: on the dividend consisting of the single
coefficient -1 with divisor 1 and modulus 3, dividePolynomials returns the
quotient with the single coefficient -1, which is not in the interval
from 0 to 3. -/
theorem claim_C9_counterexample :
    dividePolynomials [-1] [1] 3 = .ok ([-1], [0]) ∧ ¬(0 ≤ (-1 : Int)) := by
  constructor
  · decide
  · decide

/-- C9 amended: add, subtract and multiply always normalize every output
coefficient into the interval from 0 to m; divide does so for the
quotient and the remainder provided every coefficient of the dividend a
lies in that interval (out of range dividend entries can survive in the
remainder untouched and produce negative quotient entries). -/
theorem claim_C9_amended_range (a b : List Int) (m : Int) (hm : 2 ≤ m) :
    (∀ x ∈ addPolynomials a b m, 0 ≤ x ∧ x < m) ∧
    (∀ x ∈ subtractPolynomials a b m, 0 ≤ x ∧ x < m) ∧
    (∀ x ∈ multiplyPolynomials a b m, 0 ≤ x ∧ x < m) ∧
    ((∀ x ∈ a, 0 ≤ x ∧ x < m) →
      ∀ q r, dividePolynomials a b m = .ok (q, r) →
        (∀ x ∈ q, 0 ≤ x ∧ x < m) ∧ (∀ x ∈ r, 0 ≤ x ∧ x < m)) := by
  have hm0 : (0 : Int) < m := by omega
  refine ⟨?_, ?_, ?_, ?_⟩
  · intro x hx
    exact mem_trim_map_normMod hm0 _ _ hx
  · intro x hx
    exact mem_trim_map_normMod hm0 _ _ hx
  · intro x hx
    unfold multiplyPolynomials at hx
    split at hx
    · rcases List.mem_singleton.mp hx with h0
      rw [h0]
      exact ⟨le_refl 0, hm0⟩
    · exact mem_trim_map_normMod hm0 _ _ hx
  · intro ha q r hok
    unfold dividePolynomials at hok
    by_cases hb : deg1 b = 0
    · rw [if_pos hb] at hok
      exact Except.noConfusion hok
    · rw [if_neg hb] at hok
      refine divideLoop_range hm0 (by omega) (deg1 a) a _ q r ha ?_ hok
      intro x hx
      rw [List.eq_of_mem_replicate hx]
      exact ⟨le_refl 0, hm0⟩

theorem claim_C9_amended_range_witness :
    (2 : Int) ≤ 3 ∧
    ((∀ x ∈ addPolynomials [1] [2] 3, 0 ≤ x ∧ x < 3) ∧
      (∀ x ∈ subtractPolynomials [1] [2] 3, 0 ≤ x ∧ x < 3) ∧
      (∀ x ∈ multiplyPolynomials [1] [2] 3, 0 ≤ x ∧ x < 3) ∧
      ((∀ x ∈ ([1] : List Int), 0 ≤ x ∧ x < 3) →
        ∀ q r, dividePolynomials [1] [2] 3 = .ok (q, r) →
          (∀ x ∈ q, 0 ≤ x ∧ x < 3) ∧ (∀ x ∈ r, 0 ≤ x ∧ x < 3))) :=
  ⟨by norm_num, claim_C9_amended_range [1] [2] 3 (by norm_num)⟩

theorem expandArrayE_ok {arr : List Int} {len : Nat} {fill : Int} {res : List Int}
    (h : expandArrayE arr len fill = .ok res) :
    res = arr ++ List.replicate (len - arr.length) fill ∧ res.length = len := by
  unfold expandArrayE at h
  split at h
  · cases h
    rename_i hle
    refine ⟨rfl, ?_⟩
    rw [List.length_append, List.length_replicate]
    omega
  · exact Except.noConfusion h

/-- C5: decryptBits computes exactly the pipeline of spec section 4.4 -
multiply by the sign mapped f and reduce mod (I, q), apply the off by one
correction to every coefficient strictly above q / 2 while reducing mod p,
multiply by fp and reduce mod (I, p), and return the canonical form - so
whenever it returns a bundle, its value field is the pipeline result. -/
theorem claim_C5_decrypt_pipeline (N : Nat) (p q : Int) (fKey fpKey e : List Int)
    (d : DecBundle) (h : decryptBits N p q fKey fpKey e = .ok d) :
    decryptPipelineSpec N p q fKey fpKey e = .ok d.value := by
  unfold decryptBits at h
  unfold decryptPipelineSpec
  simp only [bind, Except.bind] at h ⊢
  cases h1 : dividePolynomials
      (multiplyPolynomials (fKey.map fun x => if x = -1 then q - 1 else x) e q)
      (idealPoly N) q with
  | error err => simp only [h1] at h; exact Except.noConfusion h
  | ok aDiv =>
    simp only [h1] at h ⊢
    cases h2 : dividePolynomials
        (multiplyPolynomials fpKey
          (aDiv.2.map fun x => if q < 2 * x then (x + 1).tmod p else x.tmod p) p)
        (idealPoly N) p with
    | error err => simp only [h2] at h; exact Except.noConfusion h
    | ok cDiv =>
      simp only [h2] at h ⊢
      cases h3 : expandArrayE (fKey.map fun x => if x = -1 then q - 1 else x) N 0 with
      | error err => simp only [h3] at h; exact Except.noConfusion h
      | ok fE =>
        simp only [h3] at h
        cases h4 : expandArrayE fpKey N 0 with
        | error err => simp only [h4] at h; exact Except.noConfusion h
        | ok fpE =>
          simp only [h4] at h
          cases h5 : expandArrayE e N 0 with
          | error err => simp only [h5] at h; exact Except.noConfusion h
          | ok eE =>
            simp only [h5] at h
            cases h6 : expandArrayE aDiv.1 (N + 1) 0 with
            | error err => simp only [h6] at h; exact Except.noConfusion h
            | ok q1E =>
              simp only [h6] at h
              cases h7 : expandArrayE aDiv.2 (N + 1) 0 with
              | error err => simp only [h7] at h; exact Except.noConfusion h
              | ok r1E =>
                simp only [h7] at h
                cases h8 : expandArrayE cDiv.1 (N + 1) 0 with
                | error err => simp only [h8] at h; exact Except.noConfusion h
                | ok q2E =>
                  simp only [h8] at h
                  cases h9 : expandArrayE cDiv.2 (N + 1) 0 with
                  | error err => simp only [h9] at h; exact Except.noConfusion h
                  | ok r2E =>
                    simp only [h9] at h
                    simp only [pure, Except.pure, Except.ok.injEq] at h
                    cases h
                    rfl

theorem claim_C5_decrypt_pipeline_witness :
    decryptBits 3 3 4 [1] [1] [1] = .ok
      ⟨[1], [1, 0, 0], [1, 0, 0], [1, 0, 0], [0, 0, 0, 0], [1, 0, 0, 0],
        [0, 0, 0, 0], [1, 0, 0, 0]⟩ ∧
    decryptPipelineSpec 3 3 4 [1] [1] [1] = .ok [1] :=
  ⟨by decide,
    claim_C5_decrypt_pipeline 3 3 4 [1] [1] [1]
      ⟨[1], [1, 0, 0], [1, 0, 0], [1, 0, 0], [0, 0, 0, 0], [1, 0, 0, 0],
        [0, 0, 0, 0], [1, 0, 0, 0]⟩ (by decide)⟩

/-- C4: whenever encryptBits or decryptBits returns, the value field is
the canonical form of the remainder witness field (remainderE for
encryption, remainder2 for decryption) - the bundle restates the very
same computation - and every witness field is zero padded to its declared
length N or N + 1 (for the r field, which the source stores unpadded, the
sampled randomness already has length N). -/
theorem claim_C4_witness_fidelity :
    (∀ (N : Nat) (p q : Int) (hKey rSample m : List Int) (b : EncBundle),
      rSample.length = N →
      encryptBits N p q hKey rSample m = .ok b →
      b.value = trimPolynomial b.remainderE ∧
      b.r.length = N ∧ b.m.length = N ∧ b.h.length = N ∧
      b.quotientE.length = N + 1 ∧ b.remainderE.length = N + 1) ∧
    (∀ (N : Nat) (p q : Int) (fKey fpKey e : List Int) (d : DecBundle),
      decryptBits N p q fKey fpKey e = .ok d →
      d.value = trimPolynomial d.remainder2 ∧
      d.f.length = N ∧ d.fp.length = N ∧ d.e.length = N ∧
      d.quotient1.length = N + 1 ∧ d.remainder1.length = N + 1 ∧
      d.quotient2.length = N + 1 ∧ d.remainder2.length = N + 1) := by
  constructor
  · intro N p q hKey rSample m b hr h
    unfold encryptBits at h
    simp only [bind, Except.bind] at h
    cases h1 : dividePolynomials
        (addPolynomials m
          (multiplyPolynomials (rSample.map fun x => if x = -1 then p - 1 else x) hKey q) q)
        (idealPoly N) q with
    | error err => simp only [h1] at h; exact Except.noConfusion h
    | ok dv =>
      simp only [h1] at h
      cases h2 : expandArrayE m N 0 with
      | error err => simp only [h2] at h; exact Except.noConfusion h
      | ok mE =>
        simp only [h2] at h
        cases h3 : expandArrayE hKey N 0 with
        | error err => simp only [h3] at h; exact Except.noConfusion h
        | ok hE =>
          simp only [h3] at h
          cases h4 : expandArrayE (dv.1.map fun x => x.tmod q) (N + 1) 0 with
          | error err => simp only [h4] at h; exact Except.noConfusion h
          | ok qE =>
            simp only [h4] at h
            cases h5 : expandArrayE dv.2 (N + 1) 0 with
            | error err => simp only [h5] at h; exact Except.noConfusion h
            | ok rE =>
              simp only [h5] at h
              simp only [pure, Except.pure, Except.ok.injEq] at h
              obtain ⟨hrE, hrlen⟩ := expandArrayE_ok h5
              rw [← h]
              refine ⟨?_, ?_, (expandArrayE_ok h2).2, (expandArrayE_ok h3).2,
                (expandArrayE_ok h4).2, hrlen⟩
              · simp only [hrE, trim_append_zeros, trim_trim]
              · simp only [List.length_map, hr]
  · intro N p q fKey fpKey e d h
    unfold decryptBits at h
    simp only [bind, Except.bind] at h
    cases h1 : dividePolynomials
        (multiplyPolynomials (fKey.map fun x => if x = -1 then q - 1 else x) e q)
        (idealPoly N) q with
    | error err => simp only [h1] at h; exact Except.noConfusion h
    | ok aDiv =>
      simp only [h1] at h
      cases h2 : dividePolynomials
          (multiplyPolynomials fpKey
            (aDiv.2.map fun x => if q < 2 * x then (x + 1).tmod p else x.tmod p) p)
          (idealPoly N) p with
      | error err => simp only [h2] at h; exact Except.noConfusion h
      | ok cDiv =>
        simp only [h2] at h
        cases h3 : expandArrayE (fKey.map fun x => if x = -1 then q - 1 else x) N 0 with
        | error err => simp only [h3] at h; exact Except.noConfusion h
        | ok fE =>
          simp only [h3] at h
          cases h4 : expandArrayE fpKey N 0 with
          | error err => simp only [h4] at h; exact Except.noConfusion h
          | ok fpE =>
            simp only [h4] at h
            cases h5 : expandArrayE e N 0 with
            | error err => simp only [h5] at h; exact Except.noConfusion h
            | ok eE =>
              simp only [h5] at h
              cases h6 : expandArrayE aDiv.1 (N + 1) 0 with
              | error err => simp only [h6] at h; exact Except.noConfusion h
              | ok q1E =>
                simp only [h6] at h
                cases h7 : expandArrayE aDiv.2 (N + 1) 0 with
                | error err => simp only [h7] at h; exact Except.noConfusion h
                | ok r1E =>
                  simp only [h7] at h
                  cases h8 : expandArrayE cDiv.1 (N + 1) 0 with
                  | error err => simp only [h8] at h; exact Except.noConfusion h
                  | ok q2E =>
                    simp only [h8] at h
                    cases h9 : expandArrayE cDiv.2 (N + 1) 0 with
                    | error err => simp only [h9] at h; exact Except.noConfusion h
                    | ok r2E =>
                      simp only [h9] at h
                      simp only [pure, Except.pure, Except.ok.injEq] at h
                      obtain ⟨hr2, hr2len⟩ := expandArrayE_ok h9
                      rw [← h]
                      refine ⟨?_, (expandArrayE_ok h3).2, (expandArrayE_ok h4).2,
                        (expandArrayE_ok h5).2, (expandArrayE_ok h6).2,
                        (expandArrayE_ok h7).2, (expandArrayE_ok h8).2, hr2len⟩
                      simp only [hr2, trim_append_zeros, trim_trim]

theorem claim_C4_witness_fidelity_witness :
    (([1, 0, 0] : List Int).length = 3 ∧
      encryptBits 3 3 4 [1] [1, 0, 0] [1] = .ok
        ⟨[2], [1, 0, 0], [1, 0, 0], [1, 0, 0], [0, 0, 0, 0], [2, 0, 0, 0]⟩ ∧
      ([2] : List Int) = trimPolynomial [2, 0, 0, 0] ∧
      decryptBits 3 3 4 [1] [1] [1] = .ok
        ⟨[1], [1, 0, 0], [1, 0, 0], [1, 0, 0], [0, 0, 0, 0], [1, 0, 0, 0],
          [0, 0, 0, 0], [1, 0, 0, 0]⟩ ∧
      ([1] : List Int) = trimPolynomial [1, 0, 0, 0]) :=
  ⟨by decide, by decide,
    (claim_C4_witness_fidelity.1 3 3 4 [1] [1, 0, 0] [1]
      ⟨[2], [1, 0, 0], [1, 0, 0], [1, 0, 0], [0, 0, 0, 0], [2, 0, 0, 0]⟩
      (by decide) (by decide)).1,
    by decide,
    (claim_C4_witness_fidelity.2 3 3 4 [1] [1] [1]
      ⟨[1], [1, 0, 0], [1, 0, 0], [1, 0, 0], [0, 0, 0, 0], [1, 0, 0, 0],
        [0, 0, 0, 0], [1, 0, 0, 0]⟩ (by decide)).1⟩

/-- C1 fails on the code: with configuration N = 4, p = 3, q = 4,
loadPrivateKeyF accepts the externally supplied key f = [1,1,0,0]
(returning without a throw and installing fq = [1,3] and fp = [1]),
although f times fq reduced mod (q, I) is the polynomial [1,0,3] and not
1, and f times fp reduced mod (p, I) is [1,1] and not 1: the verification
guard of the source fires only when the remainder length differs from 1
AND its constant term differs from 1, so a non trivial remainder with
constant term 1 is accepted and the invariant f fq = 1 is violated by a
live key. -/
theorem claim_C1_load_accepts_invalid_key :
    loadPrivateKeyF 4 3 4 initialKeyState [1, 1, 0, 0] =
      (⟨some [1, 1, 0, 0], some [1, 3], some [1]⟩, none) ∧
    dividePolynomials (multiplyPolynomials [1, 3] [1, 1, 0, 0] 4) (idealPoly 4) 4 =
      .ok ([0], [1, 0, 3]) ∧
    dividePolynomials (multiplyPolynomials [1] [1, 1, 0, 0] 3) (idealPoly 4) 3 =
      .ok ([0], [1, 1]) ∧
    ([1, 0, 3] : List Int) ≠ [1] ∧ ([1, 1] : List Int) ≠ [1] := by
  refine ⟨by decide, by decide, by decide, by decide, by decide⟩

/-- C6 fails on the code: on a = x + 1, b = x^2 + 1 and modulus 2 the
Euclidean loop ends with the gcd x + 1 of degree 1, yet
extendedEuclideanAlgorithm returns it instead of throwing invalid_gcd,
because the guard of the source fires only when the length differs from 1
AND the constant term differs from 1, and here the constant term is 1. -/
theorem claim_C6_eea_accepts_nontrivial_gcd :
    extendedEuclideanAlgorithm [1, 1] [1, 0, 1] 2 = .ok ([1, 1], [1]) ∧
    deg1 [1, 1] = 2 := by
  refine ⟨by decide, by decide⟩

/-- C8 fails on the code: with configuration N = 3, p = 3, q = 4 and every
sampled candidate equal to the trinary array [1, 1, -1] (two ones and one
minus one, the generateCustomArray shape for df = 2), every one of the 100
load attempts throws invalid fq after having already assigned this.fq and
this.fp, so on exhaustion the final guard (which only tests that fq and fp
are set) does not throw: generatePrivateKeyF returns silently with a non
invertible key installed, whose f fq product reduced mod (q, I) is
[3, 3, 3] and not 1. -/
theorem claim_C8_generate_exhaustion_silent :
    generatePrivateKeyF (fun _ => [1, 1, -1]) 3 3 4 =
      (⟨some [1, 1, -1], some [1, 3, 1], some [2, 0, 2]⟩, none) ∧
    (loadPrivateKeyF 3 3 4 initialKeyState [1, 1, -1]).2 = some .invalidFq ∧
    dividePolynomials (multiplyPolynomials [1, 3, 1] [1, 1, 3] 4) (idealPoly 3) 4 =
      .ok ([2, 1], [3, 3, 3]) ∧
    ([3, 3, 3] : List Int) ≠ [1] := by
  refine ⟨by decide, by decide, by decide, by decide⟩

end NtruJs
